import Mathlib

/-!
Verification of the C3 linearization engine described by the specification of
this repository. The repository itself (a presentation notebook) contains no
executable implementation of the engine: it only describes the hierarchy
model, the merge step and the linearizer in prose, together with worked REPL
transcripts. All definitions below are therefore modelled from the spec, and
the worked transcripts of the notebook (the diamond hierarchy producing
`[A, B, C, D, E, F, O]` and the inconsistent hierarchy `E(C, D)` failing)
are re-checked against the model.
-/

/-- Modelled from the spec: the error taxonomy of section 7 (the repository
contains no executable error type). `UnknownType`, `CyclicHierarchy` and
`InconsistentHierarchy`, the latter carrying the blocking heads. -/
inductive MroError where
  | unknownType (id : String)
  | cyclicHierarchy (ids : List String)
  | inconsistentHierarchy (heads : List String)
deriving DecidableEq, Repr

/-- Modelled from the spec: the `HierarchyGraph` of section 3, a mapping from
a type identifier to its ordered list of declared base identifiers. -/
abbrev Hierarchy := List (String × List String)

/-- Modelled from the spec: the memoization cache of section 4.3, a mapping
from a type identifier to an already computed linearization. -/
abbrev Cache := List (String × List String)

/-- Modelled from the spec: the test of step 1 of the merge algorithm,
whether `x` appears in the tail (non-head positions) of a sequence. -/
def inTail (x : String) : List String → Bool
  | [] => false
  | _ :: t => decide (x ∈ t)

/-- Modelled from the spec: steps 1 and 2 of the merge algorithm. Scan the
sequences left to right; the first head of a non-empty sequence that appears
in the tail of no other sequence is the good head. `pre` accumulates the
sequences already scanned. -/
def findGoodHead (pre : List (List String)) : List (List String) → Option String
  | [] => none
  | [] :: rest => findGoodHead (pre ++ [[]]) rest
  | (x :: t) :: rest =>
    if (pre ++ rest).any (inTail x) then findGoodHead (pre ++ [x :: t]) rest
    else some x

/-- Modelled from the spec: step 3 of the merge algorithm, removing the
selected element from a sequence in which it currently appears as the head. -/
def removeHead (x : String) : List String → List String
  | [] => []
  | y :: t => if y = x then t else y :: t

/-- Modelled from the spec: the heads of the remaining non-empty sequences,
reported as the diagnostic payload of `InconsistentHierarchy`. -/
def currentHeads (seqs : List (List String)) : List String :=
  seqs.filterMap List.head?

/-- Total number of element occurrences across all sequences; every merge
step removes at least one, so this bounds the number of steps. -/
def totalLen (seqs : List (List String)) : Nat :=
  (seqs.map List.length).sum

/-- Modelled from the spec: the loop of the merge algorithm of section 4.2,
written with structural fuel. Each successful step removes at least one
element, so fuel `totalLen seqs + 1` suffices; the fuel-exhaustion branch is
unreachable from `merge`. -/
def mergeFuel : Nat → List (List String) → Except MroError (List String)
  | 0, seqs => .error (.inconsistentHierarchy (currentHeads seqs))
  | fuel + 1, seqs =>
    if seqs.all List.isEmpty then .ok []
    else
      match findGoodHead [] seqs with
      | none => .error (.inconsistentHierarchy (currentHeads seqs))
      | some x =>
        match mergeFuel fuel (seqs.map (removeHead x)) with
        | .error e => .error e
        | .ok out => .ok (x :: out)

/-- Modelled from the spec: the C3 merge of section 4.2. Given a sequence of
input sequences, repeatedly select a good head, append it to the output and
remove it from every sequence where it is the head; fail with
`InconsistentHierarchy` when no good head exists. -/
def merge (seqs : List (List String)) : Except MroError (List String) :=
  mergeFuel (totalLen seqs + 1) seqs

/-- Modelled from the spec: `get_bases` of section 4.1, looking a type up in
the hierarchy graph and failing with `UnknownType` when it is absent. -/
def getBases (g : Hierarchy) (c : String) : Except MroError (List String) :=
  match g.find? (fun p => p.1 == c) with
  | some p => .ok p.2
  | none => .error (.unknownType c)

/-- Map a fallible computation over a list, propagating the first failure. -/
def mapExcept (h : String → Except MroError (List String)) :
    List String → Except MroError (List (List String))
  | [] => .ok []
  | b :: bs =>
    match h b with
    | .error e => .error e
    | .ok l =>
      match mapExcept h bs with
      | .error e => .error e
      | .ok ls => .ok (l :: ls)

/-- Modelled from the spec: the recursive linearizer of section 4.3, written
with structural fuel. A type with no declared bases linearizes to itself; a
type `C` with bases `B1 .. Bn` linearizes to
`C :: merge (L B1, ..., L Bn, [B1, ..., Bn])`. Exhausted fuel signals a
cycle, matching the `CyclicHierarchy` failure of section 7: on an acyclic
graph the fuel used by `linearize` is never exhausted. -/
def linearizeAux (g : Hierarchy) : Nat → String → Except MroError (List String)
  | 0, c => .error (.cyclicHierarchy [c])
  | fuel + 1, c =>
    match getBases g c with
    | .error e => .error e
    | .ok [] => .ok [c]
    | .ok (b :: bs) =>
      match mapExcept (fun b' => linearizeAux g fuel b') (b :: bs) with
      | .error e => .error e
      | .ok ls =>
        match merge (ls ++ [b :: bs]) with
        | .error e => .error e
        | .ok m => .ok (c :: m)

/-- Modelled from the spec: `linearize` of section 4.3. On an acyclic graph
a chain of recursive calls visits distinct types, so fuel one larger than
the graph suffices. -/
def linearize (g : Hierarchy) (c : String) : Except MroError (List String) :=
  linearizeAux g (g.length + 1) c

/-- Thread a cache through a fallible computation mapped over a list. -/
def mapMemo (h : String → Cache → Except MroError (List String × Cache)) :
    List String → Cache → Except MroError (List (List String) × Cache)
  | [], cache => .ok ([], cache)
  | b :: bs, cache =>
    match h b cache with
    | .error e => .error e
    | .ok (l, cache') =>
      match mapMemo h bs cache' with
      | .error e => .error e
      | .ok (ls, cache'') => .ok (l :: ls, cache'')

/-- Modelled from the spec: the memoized linearizer of section 4.3, the
cache being an explicit mapping from type identifier to already computed
linearization, passed through the recursive calls and consulted before
recomputing. -/
def memoAux (g : Hierarchy) : Nat → String → Cache →
    Except MroError (List String × Cache)
  | 0, c, _ => .error (.cyclicHierarchy [c])
  | fuel + 1, c, cache =>
    match cache.find? (fun p => p.1 == c) with
    | some p => .ok (p.2, cache)
    | none =>
      match getBases g c with
      | .error e => .error e
      | .ok [] => .ok ([c], (c, [c]) :: cache)
      | .ok (b :: bs) =>
        match mapMemo (fun b' ch => memoAux g fuel b' ch) (b :: bs) cache with
        | .error e => .error e
        | .ok (ls, cache') =>
          match merge (ls ++ [b :: bs]) with
          | .error e => .error e
          | .ok m => .ok (c :: m, (c, c :: m) :: cache')

/-- Modelled from the spec: `linearize` computed through the memoization
cache, started empty and scoped to the single run. -/
def linearizeMemo (g : Hierarchy) (c : String) : Except MroError (List String) :=
  match memoAux g (g.length + 1) c [] with
  | .error e => .error e
  | .ok p => .ok p.1

/-- The states of the working sequences reachable from an initial merge
state by repeatedly removing a good head, following the deterministic loop
of section 4.2. -/
inductive MergeReaches : List (List String) → List (List String) → Prop
  | refl (seqs : List (List String)) : MergeReaches seqs seqs
  | step (seqs t : List (List String)) (x : String) :
      findGoodHead [] seqs = some x →
      MergeReaches (seqs.map (removeHead x)) t →
      MergeReaches seqs t

/-- The ancestor relation generated by declared bases, reflexive and
transitive: every type is its own ancestor, and an ancestor of a declared
base is an ancestor. -/
inductive Ancestor (g : Hierarchy) : String → String → Prop
  | refl (c : String) : Ancestor g c c
  | step (c b x : String) (bs : List String) :
      getBases g c = .ok bs → b ∈ bs → Ancestor g b x → Ancestor g c x

/-- Every declared base list of the graph is duplicate-free. This is the
duplicate-freeness precondition of section 4.2 pushed onto the graph. -/
abbrev NodupBases (g : Hierarchy) : Prop := ∀ p ∈ g, (p.2 : List String).Nodup

/-- A rank function witnessing acyclicity of the graph: every declared base
has strictly smaller rank than the type declaring it. Section 3 requires
the graph to be acyclic before linearization is attempted. -/
abbrev IsRanked (g : Hierarchy) (rank : String → Nat) : Prop :=
  ∀ p ∈ g, ∀ b ∈ p.2, rank b < rank p.1

/-- Every cache entry stores the true linearization of its key: the value
that the plain linearizer returns at every sufficient fuel. -/
def CacheGood (g : Hierarchy) (rank : String → Nat) (cache : Cache) : Prop :=
  ∀ p ∈ cache, ∀ f, rank p.1 < f → linearizeAux g f p.1 = .ok p.2

/-- The diamond hierarchy of scenario B of the spec and of the notebook. -/
def diamondG : Hierarchy :=
  [("O", []), ("D", ["O"]), ("E", ["O"]), ("F", ["O"]),
   ("B", ["D", "E"]), ("C", ["D", "F"]), ("A", ["B", "C"])]

/-- The inconsistent hierarchy of the notebook: `C(A,B)`, `D(B,A)`, `E(C,D)`. -/
def conflictG : Hierarchy :=
  [("A", []), ("B", []), ("C", ["A", "B"]), ("D", ["B", "A"]),
   ("E", ["C", "D"])]

/-- Scenario C of the spec: `O`; `X(O)`, `Y(O)`; `A(X,Y)`, `B(Y,X)`;
the query type has bases `B, A`. -/
def scenarioCG : Hierarchy :=
  [("O", []), ("X", ["O"]), ("Y", ["O"]), ("A", ["X", "Y"]),
   ("B", ["Y", "X"]), ("Cq", ["B", "A"])]

theorem inTail_eq_true {x : String} {s : List String} :
    inTail x s = true ↔ ∃ y t, s = y :: t ∧ x ∈ t := by
  cases s with
  | nil => simp [inTail]
  | cons y t =>
    simp only [inTail, decide_eq_true_eq]
    constructor
    · intro h; exact ⟨y, t, rfl, h⟩
    · rintro ⟨y2, t2, he, hm⟩
      obtain ⟨rfl, rfl⟩ : y = y2 ∧ t = t2 := by
        constructor
        · exact (List.cons.injEq _ _ _ _ ▸ he).1
        · exact (List.cons.injEq _ _ _ _ ▸ he).2
      exact hm

theorem mem_of_mem_removeHead {y x : String} {s : List String}
    (h : y ∈ removeHead x s) : y ∈ s := by
  cases s with
  | nil => simp [removeHead] at h
  | cons z t =>
    by_cases hz : z = x
    · subst hz; simp only [removeHead, if_pos rfl] at h; exact List.mem_cons_of_mem _ h
    · simpa [removeHead, hz] using h

theorem mem_removeHead_of_ne {y x : String} {s : List String}
    (h : y ∈ s) (hne : y ≠ x) : y ∈ removeHead x s := by
  cases s with
  | nil => simp at h
  | cons z t =>
    by_cases hz : z = x
    · subst hz
      rcases List.mem_cons.mp h with rfl | ht
      · exact absurd rfl hne
      · simpa [removeHead] using ht
    · simpa [removeHead, hz] using h

theorem removeHead_nodup {x : String} {s : List String}
    (h : s.Nodup) : (removeHead x s).Nodup := by
  cases s with
  | nil => simp [removeHead]
  | cons z t =>
    by_cases hz : z = x
    · subst hz; simp only [removeHead, if_pos rfl]; exact (List.nodup_cons.mp h).2
    · simpa [removeHead, hz] using h

theorem removeHead_length_le (x : String) (s : List String) :
    (removeHead x s).length ≤ s.length := by
  cases s with
  | nil => simp [removeHead]
  | cons z t =>
    by_cases hz : z = x
    · subst hz; simp [removeHead]
    · simp [removeHead, hz]

theorem removeHead_cons_self (x : String) (t : List String) :
    removeHead x (x :: t) = t := by simp [removeHead]

theorem totalLen_cons (s : List String) (seqs : List (List String)) :
    totalLen (s :: seqs) = s.length + totalLen seqs := by
  simp [totalLen]

theorem totalLen_remove_le (x : String) (seqs : List (List String)) :
    totalLen (seqs.map (removeHead x)) ≤ totalLen seqs := by
  induction seqs with
  | nil => simp [totalLen]
  | cons s rest ih =>
    simp only [List.map_cons, totalLen_cons]
    exact Nat.add_le_add (removeHead_length_le x s) ih

theorem totalLen_remove_lt {x : String} {t : List String}
    {seqs : List (List String)} (h : (x :: t) ∈ seqs) :
    totalLen (seqs.map (removeHead x)) < totalLen seqs := by
  induction seqs with
  | nil => simp at h
  | cons s rest ih =>
    simp only [List.map_cons, totalLen_cons]
    rcases List.mem_cons.mp h with rfl | hmem
    · rw [removeHead_cons_self]
      have := totalLen_remove_le x rest
      simp only [List.length_cons]
      omega
    · have h1 := removeHead_length_le x s
      have h2 := ih hmem
      omega

theorem findGoodHead_some {pre seqs : List (List String)} {x : String}
    (h : findGoodHead pre seqs = some x) :
    ∃ s1 t s2, seqs = s1 ++ (x :: t) :: s2 ∧
      ∀ s ∈ pre ++ (s1 ++ s2), inTail x s = false := by
  induction seqs generalizing pre with
  | nil => simp [findGoodHead] at h
  | cons s rest ih =>
    cases s with
    | nil =>
      rw [findGoodHead] at h
      obtain ⟨s1, t, s2, hre, hcond⟩ := ih h
      refine ⟨[] :: s1, t, s2, by rw [hre]; rfl, ?_⟩
      intro s hs
      rcases List.mem_append.mp hs with hp | hq
      · exact hcond s (by simp [hp])
      · rcases List.mem_append.mp hq with h1 | h2
        · rcases List.mem_cons.mp h1 with rfl | h1
          · rfl
          · exact hcond s (by simp [h1])
        · exact hcond s (by simp [h2])
    | cons y t0 =>
      rw [findGoodHead] at h
      by_cases hb : (pre ++ rest).any (inTail y) = true
      · rw [if_pos hb] at h
        obtain ⟨s1, t, s2, hre, hcond⟩ := ih h
        refine ⟨(y :: t0) :: s1, t, s2, by rw [hre]; rfl, ?_⟩
        intro s hs
        rcases List.mem_append.mp hs with hp | hq
        · exact hcond s (by simp [hp])
        · rcases List.mem_append.mp hq with h1 | h2
          · rcases List.mem_cons.mp h1 with rfl | h1
            · exact hcond _ (by simp)
            · exact hcond s (by simp [h1])
          · exact hcond s (by simp [h2])
      · rw [if_neg hb] at h
        obtain rfl : y = x := by simpa using h
        refine ⟨[], t0, rest, rfl, ?_⟩
        intro s hs
        have hall := List.any_eq_false.mp (Bool.eq_false_iff.mpr hb)
        have hs2 : s ∈ pre ++ rest := by simpa using hs
        simpa using hall s hs2

theorem findGoodHead_none {pre seqs : List (List String)}
    (h : findGoodHead pre seqs = none) :
    ∀ s1 x t s2, seqs = s1 ++ (x :: t) :: s2 →
      ∃ s ∈ pre ++ (s1 ++ s2), inTail x s = true := by
  induction seqs generalizing pre with
  | nil =>
    intro s1 x t s2 he
    exact absurd he (by simp)
  | cons s rest ih =>
    cases s with
    | nil =>
      rw [findGoodHead] at h
      intro s1 x t s2 he
      cases s1 with
      | nil => simp at he
      | cons s1h s1t =>
        obtain ⟨rfl, hre⟩ : s1h = [] ∧ rest = s1t ++ (x :: t) :: s2 := by
          constructor
          · exact (List.cons.injEq _ _ _ _ ▸ he).1.symm
          · exact (List.cons.injEq _ _ _ _ ▸ he).2
        obtain ⟨s, hs, hst⟩ := ih h s1t x t s2 hre
        refine ⟨s, ?_, hst⟩
        rcases List.mem_append.mp hs with hp | hq
        · rcases List.mem_append.mp hp with h1 | h2
          · simp [h1]
          · rcases List.mem_cons.mp h2 with rfl | h2
            · simp
            · simp at h2
        · rcases List.mem_append.mp hq with h1 | h2
          · simp [h1]
          · simp [h2]
    | cons y t0 =>
      rw [findGoodHead] at h
      by_cases hb : (pre ++ rest).any (inTail y) = true
      · rw [if_pos hb] at h
        intro s1 x t s2 he
        cases s1 with
        | nil =>
          obtain ⟨hxy, hre⟩ : (y :: t0 : List String) = x :: t ∧ rest = s2 := by
            constructor
            · exact (List.cons.injEq _ _ _ _ ▸ he).1
            · exact (List.cons.injEq _ _ _ _ ▸ he).2
          obtain ⟨rfl, rfl⟩ : y = x ∧ t0 = t := by
            constructor
            · exact (List.cons.injEq _ _ _ _ ▸ hxy).1
            · exact (List.cons.injEq _ _ _ _ ▸ hxy).2
          obtain ⟨s, hs, hst⟩ := List.any_eq_true.mp hb
          subst hre
          refine ⟨s, ?_, hst⟩
          rcases List.mem_append.mp hs with hp | hq
          · simp [hp]
          · simp [hq]
        | cons s1h s1t =>
          obtain ⟨rfl, hre⟩ : s1h = (y :: t0 : List String) ∧
              rest = s1t ++ (x :: t) :: s2 := by
            constructor
            · exact (List.cons.injEq _ _ _ _ ▸ he).1.symm
            · exact (List.cons.injEq _ _ _ _ ▸ he).2
          obtain ⟨s, hs, hst⟩ := ih h s1t x t s2 hre
          refine ⟨s, ?_, hst⟩
          rcases List.mem_append.mp hs with hp | hq
          · rcases List.mem_append.mp hp with h1 | h2
            · simp [h1]
            · rcases List.mem_cons.mp h2 with rfl | h2
              · simp
              · simp at h2
          · rcases List.mem_append.mp hq with h1 | h2
            · simp [h1]
            · simp [h2]
      · rw [if_neg hb] at h
        simp at h

theorem findGoodHead_of_allEmpty {pre seqs : List (List String)}
    (h : ∀ s ∈ seqs, s = []) : findGoodHead pre seqs = none := by
  induction seqs generalizing pre with
  | nil => rfl
  | cons s rest ih =>
    have hs : s = [] := h s (by simp)
    subst hs
    rw [findGoodHead]
    exact ih fun s hs => h s (by simp [hs])

theorem mergeFuel_succ_empty {f : Nat} {seqs : List (List String)}
    (hemp : seqs.all List.isEmpty = true) : mergeFuel (f + 1) seqs = .ok [] := by
  rw [mergeFuel, if_pos hemp]

theorem mergeFuel_succ_none {f : Nat} {seqs : List (List String)}
    (hemp : seqs.all List.isEmpty = false) (hfg : findGoodHead [] seqs = none) :
    mergeFuel (f + 1) seqs = .error (.inconsistentHierarchy (currentHeads seqs)) := by
  rw [mergeFuel, if_neg (by simp [hemp]), hfg]

theorem mergeFuel_succ_some {f : Nat} {seqs : List (List String)} {a : String}
    (hemp : seqs.all List.isEmpty = false) (hfg : findGoodHead [] seqs = some a) :
    mergeFuel (f + 1) seqs =
      match mergeFuel f (seqs.map (removeHead a)) with
      | .error e => Except.error e
      | .ok out => Except.ok (a :: out) := by
  rw [mergeFuel, if_neg (by simp [hemp]), hfg]

theorem mergeFuel_mem {f : Nat} {seqs : List (List String)} {out : List String} :
    totalLen seqs < f → mergeFuel f seqs = .ok out →
    ∀ x, x ∈ out ↔ ∃ s ∈ seqs, x ∈ s := by
  induction f generalizing seqs out with
  | zero => intro hf; omega
  | succ f ih =>
    intro hf hm
    cases hemp : seqs.all List.isEmpty with
    | true =>
      rw [mergeFuel_succ_empty hemp] at hm
      injection hm with hm
      subst hm
      intro x
      constructor
      · intro hx; simp at hx
      · rintro ⟨s, hs, hx⟩
        have : s.isEmpty = true := List.all_eq_true.mp hemp s hs
        rw [List.isEmpty_iff.mp this] at hx
        simp at hx
    | false =>
      cases hfg : findGoodHead [] seqs with
      | none => rw [mergeFuel_succ_none hemp hfg] at hm; simp at hm
      | some a =>
        rw [mergeFuel_succ_some hemp hfg] at hm
        obtain ⟨s1, t, s2, hdec, hcond⟩ := findGoodHead_some hfg
        have hmemg : (a :: t) ∈ seqs := by rw [hdec]; simp
        have hlt : totalLen (seqs.map (removeHead a)) < f := by
          have := totalLen_remove_lt hmemg
          omega
        cases hrec : mergeFuel f (seqs.map (removeHead a)) with
        | error e => rw [hrec] at hm; simp at hm
        | ok out2 =>
          rw [hrec] at hm
          simp only [Except.ok.injEq] at hm
          subst hm
          have ihm := ih hlt hrec
          intro x
          constructor
          · intro hx
            rcases List.mem_cons.mp hx with rfl | hx
            · exact ⟨_, hmemg, by simp⟩
            · obtain ⟨s3, hs3, hxs⟩ := (ihm x).mp hx
              obtain ⟨s4, hs4, rfl⟩ := List.mem_map.mp hs3
              exact ⟨s4, hs4, mem_of_mem_removeHead hxs⟩
          · rintro ⟨s3, hs3, hxs⟩
            by_cases hxa : x = a
            · simp [hxa]
            · have h1 : x ∈ removeHead a s3 := mem_removeHead_of_ne hxs hxa
              have h2 : x ∈ out2 := (ihm x).mpr
                ⟨removeHead a s3, List.mem_map_of_mem _ hs3, h1⟩
              simp [h2]

theorem goodHead_not_inTail {seqs : List (List String)} {a : String}
    (hnd : ∀ s ∈ seqs, s.Nodup) (hfg : findGoodHead [] seqs = some a) :
    ∀ s ∈ seqs, inTail a s = false := by
  obtain ⟨s1, t, s2, hdec, hcond⟩ := findGoodHead_some hfg
  intro s hs
  rw [hdec] at hs
  rcases List.mem_append.mp hs with h1 | h2
  · exact hcond s (by simp [h1])
  · rcases List.mem_cons.mp h2 with rfl | h2
    · have hnds : (a :: t).Nodup := hnd _ (by rw [hdec]; simp)
      have : a ∉ t := (List.nodup_cons.mp hnds).1
      simp [inTail, this]
    · exact hcond s (by simp [h2])

theorem goodHead_not_mem_removed {seqs : List (List String)} {a : String}
    (hall : ∀ s ∈ seqs, inTail a s = false) :
    ∀ s ∈ seqs, a ∉ removeHead a s := by
  intro s hs
  cases s with
  | nil => simp [removeHead]
  | cons z t =>
    have htail : a ∉ t := by
      intro hat
      have h1 : inTail a (z :: t) = true := by simp [inTail, hat]
      rw [hall _ hs] at h1
      exact absurd h1 (by simp)
    by_cases hz : z = a
    · subst hz; rw [removeHead_cons_self]; exact htail
    · intro hmem
      have hmem2 : a ∈ z :: t := by
        have h3 : removeHead a (z :: t) = z :: t := by simp [removeHead, hz]
        rwa [h3] at hmem
      rcases List.mem_cons.mp hmem2 with rfl | h2
      · exact hz rfl
      · exact htail h2

theorem mergeFuel_nodup {f : Nat} {seqs : List (List String)} {out : List String} :
    totalLen seqs < f → (∀ s ∈ seqs, s.Nodup) → mergeFuel f seqs = .ok out →
    out.Nodup := by
  induction f generalizing seqs out with
  | zero => intro hf; omega
  | succ f ih =>
    intro hf hnd hm
    cases hemp : seqs.all List.isEmpty with
    | true =>
      rw [mergeFuel_succ_empty hemp] at hm
      injection hm with hm
      subst hm
      exact List.nodup_nil
    | false =>
      cases hfg : findGoodHead [] seqs with
      | none => rw [mergeFuel_succ_none hemp hfg] at hm; simp at hm
      | some a =>
        rw [mergeFuel_succ_some hemp hfg] at hm
        obtain ⟨s1, t, s2, hdec, hcond⟩ := findGoodHead_some hfg
        have hmemg : (a :: t) ∈ seqs := by rw [hdec]; simp
        have hlt : totalLen (seqs.map (removeHead a)) < f := by
          have := totalLen_remove_lt hmemg
          omega
        cases hrec : mergeFuel f (seqs.map (removeHead a)) with
        | error e => rw [hrec] at hm; simp at hm
        | ok out2 =>
          rw [hrec] at hm
          simp only [Except.ok.injEq] at hm
          subst hm
          have hnd2 : ∀ s ∈ seqs.map (removeHead a), s.Nodup := by
            intro s hs
            obtain ⟨s4, hs4, rfl⟩ := List.mem_map.mp hs
            exact removeHead_nodup (hnd s4 hs4)
          refine List.nodup_cons.mpr ⟨?_, ih hlt hnd2 hrec⟩
          intro hain
          obtain ⟨s3, hs3, has⟩ := (mergeFuel_mem hlt hrec a).mp hain
          obtain ⟨s4, hs4, rfl⟩ := List.mem_map.mp hs3
          exact goodHead_not_mem_removed
            (goodHead_not_inTail hnd hfg) s4 hs4 has

theorem mergeFuel_sublist {f : Nat} {seqs : List (List String)}
    {out s : List String} {x y : String} :
    totalLen seqs < f → mergeFuel f seqs = .ok out → s ∈ seqs →
    [x, y].Sublist s → [x, y].Sublist out := by
  induction f generalizing seqs out s with
  | zero => intro hf; omega
  | succ f ih =>
    intro hf hm hs hsub
    cases hemp : seqs.all List.isEmpty with
    | true =>
      have h1 : s.isEmpty = true := List.all_eq_true.mp hemp s hs
      rw [List.isEmpty_iff.mp h1] at hsub
      simp at hsub
    | false =>
      cases hfg : findGoodHead [] seqs with
      | none => rw [mergeFuel_succ_none hemp hfg] at hm; simp at hm
      | some a =>
        rw [mergeFuel_succ_some hemp hfg] at hm
        obtain ⟨s1, t, s2, hdec, hcond⟩ := findGoodHead_some hfg
        have hmemg : (a :: t) ∈ seqs := by rw [hdec]; simp
        have hlt : totalLen (seqs.map (removeHead a)) < f := by
          have := totalLen_remove_lt hmemg
          omega
        cases hrec : mergeFuel f (seqs.map (removeHead a)) with
        | error e => rw [hrec] at hm; simp at hm
        | ok out2 =>
          rw [hrec] at hm
          simp only [Except.ok.injEq] at hm
          subst hm
          cases s with
          | nil => simp at hsub
          | cons z t2 =>
            by_cases hz : z = a
            · subst hz
              by_cases hx : x = z
              · subst hx
                have hyt : y ∈ t2 := by
                  cases hsub with
                  | cons _ h2 => exact h2.subset (by simp)
                  | cons₂ _ h2 => exact List.singleton_sublist.mp h2
                have ht2 : t2 ∈ seqs.map (removeHead x) := by
                  have h3 : removeHead x (x :: t2) = t2 := removeHead_cons_self x t2
                  rw [← h3]
                  exact List.mem_map_of_mem _ hs
                have h4 : y ∈ out2 := (mergeFuel_mem hlt hrec y).mpr ⟨t2, ht2, hyt⟩
                exact List.Sublist.cons₂ x (List.singleton_sublist.mpr h4)
              · have hsub2 : [x, y].Sublist t2 := by
                  cases hsub with
                  | cons _ h2 => exact h2
                  | cons₂ _ h2 => exact absurd rfl hx
                have ht2 : t2 ∈ seqs.map (removeHead z) := by
                  have h3 : removeHead z (z :: t2) = t2 := removeHead_cons_self z t2
                  rw [← h3]
                  exact List.mem_map_of_mem _ hs
                exact List.Sublist.cons z (ih hlt hrec ht2 hsub2)
            · have hsame : removeHead a (z :: t2) = z :: t2 := by
                simp [removeHead, hz]
              have hmem2 : (z :: t2) ∈ seqs.map (removeHead a) := by
                rw [← hsame]
                exact List.mem_map_of_mem _ hs
              exact List.Sublist.cons a (ih hlt hrec hmem2 hsub)

theorem mergeFuel_error_char {f : Nat} {seqs : List (List String)} {e : MroError} :
    totalLen seqs < f → mergeFuel f seqs = .error e →
    (∃ hs, e = .inconsistentHierarchy hs) ∧
      ∃ s2, MergeReaches seqs s2 ∧ s2.all List.isEmpty = false ∧
        findGoodHead [] s2 = none := by
  induction f generalizing seqs e with
  | zero => intro hf; omega
  | succ f ih =>
    intro hf hm
    cases hemp : seqs.all List.isEmpty with
    | true => rw [mergeFuel_succ_empty hemp] at hm; simp at hm
    | false =>
      cases hfg : findGoodHead [] seqs with
      | none =>
        rw [mergeFuel_succ_none hemp hfg] at hm
        injection hm with hm
        exact ⟨⟨currentHeads seqs, hm.symm⟩, seqs, MergeReaches.refl seqs, hemp, hfg⟩
      | some a =>
        rw [mergeFuel_succ_some hemp hfg] at hm
        obtain ⟨s1, t, s2, hdec, hcond⟩ := findGoodHead_some hfg
        have hmemg : (a :: t) ∈ seqs := by rw [hdec]; simp
        have hlt : totalLen (seqs.map (removeHead a)) < f := by
          have := totalLen_remove_lt hmemg
          omega
        cases hrec : mergeFuel f (seqs.map (removeHead a)) with
        | error e2 =>
          rw [hrec] at hm
          simp only [Except.error.injEq] at hm
          subst hm
          obtain ⟨hshape, s3, hreach, hne, hnone⟩ := ih hlt hrec
          exact ⟨hshape, s3, MergeReaches.step seqs s3 a hfg hreach, hne, hnone⟩
        | ok out2 => rw [hrec] at hm; simp at hm

theorem mergeReaches_none_error {seqs s2 : List (List String)}
    (hreach : MergeReaches seqs s2) :
    s2.all List.isEmpty = false → findGoodHead [] s2 = none →
    ∀ {f : Nat}, totalLen seqs < f → ∃ e, mergeFuel f seqs = .error e := by
  induction hreach with
  | refl seqs =>
    intro hne hnone f hf
    cases f with
    | zero => omega
    | succ f => exact ⟨_, mergeFuel_succ_none hne hnone⟩
  | step seqs t a hfg hre ih =>
    intro hne hnone f hf
    cases f with
    | zero => omega
    | succ f =>
      have hemp : seqs.all List.isEmpty = false := by
        cases h2 : seqs.all List.isEmpty with
        | false => rfl
        | true =>
          have hallnil : ∀ s ∈ seqs, s = [] := by
            intro s hs
            exact List.isEmpty_iff.mp (List.all_eq_true.mp h2 s hs)
          rw [findGoodHead_of_allEmpty hallnil] at hfg
          exact absurd hfg (by simp)
      obtain ⟨s1, t2, s3, hdec, hcond⟩ := findGoodHead_some hfg
      have hmemg : (a :: t2) ∈ seqs := by rw [hdec]; simp
      have hlt : totalLen (seqs.map (removeHead a)) < f := by
        have := totalLen_remove_lt hmemg
        omega
      obtain ⟨e, herr⟩ := ih hne hnone hlt
      refine ⟨e, ?_⟩
      rw [mergeFuel_succ_some hemp hfg, herr]

theorem mergeFuel_ok_reach_empty {f : Nat} {seqs : List (List String)}
    {out : List String} :
    totalLen seqs < f → mergeFuel f seqs = .ok out →
    ∃ s2, MergeReaches seqs s2 ∧ s2.all List.isEmpty = true := by
  induction f generalizing seqs out with
  | zero => intro hf; omega
  | succ f ih =>
    intro hf hm
    cases hemp : seqs.all List.isEmpty with
    | true => exact ⟨seqs, MergeReaches.refl seqs, hemp⟩
    | false =>
      cases hfg : findGoodHead [] seqs with
      | none => rw [mergeFuel_succ_none hemp hfg] at hm; simp at hm
      | some a =>
        rw [mergeFuel_succ_some hemp hfg] at hm
        obtain ⟨s1, t, s2, hdec, hcond⟩ := findGoodHead_some hfg
        have hmemg : (a :: t) ∈ seqs := by rw [hdec]; simp
        have hlt : totalLen (seqs.map (removeHead a)) < f := by
          have := totalLen_remove_lt hmemg
          omega
        cases hrec : mergeFuel f (seqs.map (removeHead a)) with
        | error e => rw [hrec] at hm; simp at hm
        | ok out2 =>
          obtain ⟨s3, hreach, hae⟩ := ih hlt hrec
          exact ⟨s3, MergeReaches.step seqs s3 a hfg hreach, hae⟩

theorem merge_mem {seqs : List (List String)} {out : List String}
    (h : merge seqs = .ok out) : ∀ x, x ∈ out ↔ ∃ s ∈ seqs, x ∈ s :=
  mergeFuel_mem (Nat.lt_succ_self _) h

theorem merge_nodup {seqs : List (List String)} {out : List String}
    (hnd : ∀ s ∈ seqs, s.Nodup) (h : merge seqs = .ok out) : out.Nodup :=
  mergeFuel_nodup (Nat.lt_succ_self _) hnd h

theorem merge_sublist {seqs : List (List String)} {out s : List String}
    {x y : String} (h : merge seqs = .ok out) (hs : s ∈ seqs)
    (hsub : [x, y].Sublist s) : [x, y].Sublist out :=
  mergeFuel_sublist (Nat.lt_succ_self _) h hs hsub

theorem merge_error_char {seqs : List (List String)} {e : MroError}
    (h : merge seqs = .error e) :
    (∃ hs, e = .inconsistentHierarchy hs) ∧
      ∃ s2, MergeReaches seqs s2 ∧ s2.all List.isEmpty = false ∧
        findGoodHead [] s2 = none :=
  mergeFuel_error_char (Nat.lt_succ_self _) h

theorem merge_error_of_reach_none {seqs s2 : List (List String)}
    (hreach : MergeReaches seqs s2) (hne : s2.all List.isEmpty = false)
    (hnone : findGoodHead [] s2 = none) : ∃ e, merge seqs = .error e :=
  mergeReaches_none_error hreach hne hnone (Nat.lt_succ_self _)

theorem merge_ok_reach_empty {seqs : List (List String)} {out : List String}
    (h : merge seqs = .ok out) :
    ∃ s2, MergeReaches seqs s2 ∧ s2.all List.isEmpty = true :=
  mergeFuel_ok_reach_empty (Nat.lt_succ_self _) h

theorem findGoodHead_none_iff {seqs : List (List String)} :
    findGoodHead [] seqs = none ↔
      ∀ s1 x t s2, seqs = s1 ++ (x :: t) :: s2 →
        ∃ s ∈ s1 ++ s2, inTail x s = true := by
  constructor
  · intro h s1 x t s2 hdec
    obtain ⟨s, hs, hst⟩ := findGoodHead_none h s1 x t s2 hdec
    exact ⟨s, by simpa using hs, hst⟩
  · intro hall
    cases hfg : findGoodHead [] seqs with
    | none => rfl
    | some a =>
      obtain ⟨s1, t, s2, hdec, hcond⟩ := findGoodHead_some hfg
      obtain ⟨s, hs, hst⟩ := hall s1 a t s2 hdec
      rw [hcond s (by simpa using hs)] at hst
      exact absurd hst (by simp)

theorem getBases_ok_mem {g : Hierarchy} {c : String} {bs : List String}
    (h : getBases g c = .ok bs) : (c, bs) ∈ g := by
  cases hf : g.find? (fun p => p.1 == c) with
  | none => simp [getBases, hf] at h
  | some p =>
    obtain ⟨p1, p2⟩ := p
    simp only [getBases, hf] at h
    injection h with h
    have hp := List.find?_some hf
    have hm := List.mem_of_find?_eq_some hf
    obtain rfl : p1 = c := by simpa using hp
    subst h
    exact hm

theorem nodupBases_of {g : Hierarchy} {c : String} {bs : List String}
    (hg : NodupBases g) (h : getBases g c = .ok bs) : bs.Nodup :=
  hg (c, bs) (getBases_ok_mem h)

theorem isRanked_lt {g : Hierarchy} {rank : String → Nat} {c b : String}
    {bs : List String} (hr : IsRanked g rank) (h : getBases g c = .ok bs)
    (hb : b ∈ bs) : rank b < rank c :=
  hr (c, bs) (getBases_ok_mem h) b hb

theorem mapExcept_cons_ok {h : String → Except MroError (List String)}
    {b : String} {bs : List String} {ls : List (List String)} :
    mapExcept h (b :: bs) = .ok ls ↔
      ∃ l ls2, h b = .ok l ∧ mapExcept h bs = .ok ls2 ∧ ls = l :: ls2 := by
  constructor
  · intro hm
    cases hb1 : h b with
    | error e => simp only [mapExcept, hb1] at hm; exact Except.noConfusion hm
    | ok l =>
      simp only [mapExcept, hb1] at hm
      cases hrest : mapExcept h bs with
      | error e => rw [hrest] at hm; simp at hm
      | ok ls2 =>
        rw [hrest] at hm
        simp only [Except.ok.injEq] at hm
        exact ⟨l, ls2, rfl, rfl, hm.symm⟩
  · rintro ⟨l, ls2, hb1, hrest, rfl⟩
    simp only [mapExcept, hb1, hrest]

theorem mapExcept_congr {h1 h2 : String → Except MroError (List String)}
    {bs : List String} (hp : ∀ b ∈ bs, h1 b = h2 b) :
    mapExcept h1 bs = mapExcept h2 bs := by
  induction bs with
  | nil => rfl
  | cons b bs2 ih =>
    have hrest : mapExcept h1 bs2 = mapExcept h2 bs2 :=
      ih fun b2 hb2 => hp b2 (by simp [hb2])
    simp only [mapExcept, hp b (by simp), hrest]

theorem mapExcept_mono {h1 h2 : String → Except MroError (List String)}
    {bs : List String}
    (hp : ∀ b ∈ bs, ∀ l, h1 b = .ok l → h2 b = .ok l) :
    ∀ {ls}, mapExcept h1 bs = .ok ls → mapExcept h2 bs = .ok ls := by
  induction bs with
  | nil => intro ls hm; exact hm
  | cons b bs2 ih =>
    intro ls hm
    obtain ⟨l, ls2, hb1, hrest, rfl⟩ := mapExcept_cons_ok.mp hm
    have hb2 : h2 b = .ok l := hp b (by simp) l hb1
    have hrest2 : mapExcept h2 bs2 = .ok ls2 :=
      ih (fun b2 hm2 l2 ho => hp b2 (by simp [hm2]) l2 ho) hrest
    exact mapExcept_cons_ok.mpr ⟨l, ls2, hb2, hrest2, rfl⟩

theorem mapExcept_mem {h : String → Except MroError (List String)}
    {bs : List String} {b : String} :
    ∀ {ls}, mapExcept h bs = .ok ls → b ∈ bs → ∃ l ∈ ls, h b = .ok l := by
  induction bs with
  | nil => intro ls hm hb; simp at hb
  | cons b2 bs2 ih =>
    intro ls hm hb
    obtain ⟨l, ls2, hb1, hrest, rfl⟩ := mapExcept_cons_ok.mp hm
    rcases List.mem_cons.mp hb with rfl | hb
    · exact ⟨l, by simp, hb1⟩
    · obtain ⟨l2, hl2, hok⟩ := ih hrest hb
      exact ⟨l2, by simp [hl2], hok⟩

theorem mapExcept_elem {h : String → Except MroError (List String)}
    {bs : List String} {l : List String} :
    ∀ {ls}, mapExcept h bs = .ok ls → l ∈ ls → ∃ b ∈ bs, h b = .ok l := by
  induction bs with
  | nil =>
    intro ls hm hl
    injection hm with hm
    subst hm
    simp at hl
  | cons b2 bs2 ih =>
    intro ls hm hl
    obtain ⟨l2, ls2, hb1, hrest, rfl⟩ := mapExcept_cons_ok.mp hm
    rcases List.mem_cons.mp hl with rfl | hl
    · exact ⟨b2, by simp, hb1⟩
    · obtain ⟨b3, hb3, hok⟩ := ih hrest hl
      exact ⟨b3, by simp [hb3], hok⟩

theorem mapExcept_forall2 {h : String → Except MroError (List String)}
    {bs : List String} :
    ∀ {ls}, mapExcept h bs = .ok ls →
      List.Forall₂ (fun b l => h b = .ok l) bs ls := by
  induction bs with
  | nil =>
    intro ls hm
    injection hm with hm
    subst hm
    exact List.Forall₂.nil
  | cons b bs2 ih =>
    intro ls hm
    obtain ⟨l, ls2, hb1, hrest, rfl⟩ := mapExcept_cons_ok.mp hm
    exact List.Forall₂.cons hb1 (ih hrest)

theorem linearizeAux_zero {g : Hierarchy} {c : String} :
    linearizeAux g 0 c = .error (.cyclicHierarchy [c]) := rfl

theorem linearizeAux_succ_err {g : Hierarchy} {f : Nat} {c : String}
    {e : MroError} (hb : getBases g c = .error e) :
    linearizeAux g (f + 1) c = .error e := by
  simp only [linearizeAux, hb]

theorem linearizeAux_succ_nil {g : Hierarchy} {f : Nat} {c : String}
    (hb : getBases g c = .ok []) : linearizeAux g (f + 1) c = .ok [c] := by
  simp only [linearizeAux, hb]

theorem linearizeAux_cons_ok {g : Hierarchy} {f : Nat} {c b : String}
    {bs : List String} {l : List String} (hb : getBases g c = .ok (b :: bs)) :
    linearizeAux g (f + 1) c = .ok l ↔
      ∃ ls m, mapExcept (fun b2 => linearizeAux g f b2) (b :: bs) = .ok ls ∧
        merge (ls ++ [b :: bs]) = .ok m ∧ l = c :: m := by
  constructor
  · intro hm
    simp only [linearizeAux, hb] at hm
    cases hmap : mapExcept (fun b2 => linearizeAux g f b2) (b :: bs) with
    | error e => rw [hmap] at hm; simp at hm
    | ok ls =>
      rw [hmap] at hm
      simp only at hm
      cases hmer : merge (ls ++ [b :: bs]) with
      | error e => rw [hmer] at hm; simp at hm
      | ok m =>
        rw [hmer] at hm
        simp only [Except.ok.injEq] at hm
        exact ⟨ls, m, rfl, hmer, hm.symm⟩
  · rintro ⟨ls, m, hmap, hmer, rfl⟩
    simp only [linearizeAux, hb, hmap, hmer]

theorem linearizeAux_ok_shape {g : Hierarchy} {f : Nat} {c : String}
    {l : List String} (h : linearizeAux g f c = .ok l) : ∃ m, l = c :: m := by
  cases f with
  | zero => rw [linearizeAux_zero] at h; simp at h
  | succ f =>
    cases hb : getBases g c with
    | error e => rw [linearizeAux_succ_err hb] at h; simp at h
    | ok bs =>
      cases bs with
      | nil =>
        rw [linearizeAux_succ_nil hb] at h
        injection h with h
        exact ⟨[], h.symm⟩
      | cons b bs2 =>
        obtain ⟨ls, m, _, _, rfl⟩ := (linearizeAux_cons_ok hb).mp h
        exact ⟨m, rfl⟩

theorem linearizeAux_mono {g : Hierarchy} :
    ∀ {f f2 : Nat}, f ≤ f2 → ∀ {c : String} {l : List String},
      linearizeAux g f c = .ok l → linearizeAux g f2 c = .ok l := by
  intro f
  induction f with
  | zero =>
    intro f2 hle c l h
    rw [linearizeAux_zero] at h
    simp at h
  | succ f ih =>
    intro f2 hle c l h
    obtain ⟨f3, rfl⟩ : ∃ f3, f2 = f3 + 1 := ⟨f2 - 1, by omega⟩
    have hle2 : f ≤ f3 := by omega
    cases hb : getBases g c with
    | error e => rw [linearizeAux_succ_err hb] at h; simp at h
    | ok bs =>
      cases bs with
      | nil =>
        rw [linearizeAux_succ_nil hb] at h
        rw [linearizeAux_succ_nil hb]
        exact h
      | cons b bs2 =>
        obtain ⟨ls, m, hmap, hmer, rfl⟩ := (linearizeAux_cons_ok hb).mp h
        have hmap2 : mapExcept (fun b2 => linearizeAux g f3 b2) (b :: bs2) = .ok ls :=
          mapExcept_mono (fun b2 _ l2 hok => ih hle2 hok) hmap
        exact (linearizeAux_cons_ok hb).mpr ⟨ls, m, hmap2, hmer, rfl⟩

theorem linearizeAux_det {g : Hierarchy} {f1 f2 : Nat} {c : String}
    {l1 l2 : List String} (h1 : linearizeAux g f1 c = .ok l1)
    (h2 : linearizeAux g f2 c = .ok l2) : l1 = l2 := by
  have e1 := linearizeAux_mono (Nat.le_max_left f1 f2) h1
  have e2 := linearizeAux_mono (Nat.le_max_right f1 f2) h2
  rw [e1] at e2
  injection e2

theorem linearizeAux_tail_succ {g : Hierarchy} :
    ∀ {f : Nat} {c x : String} {m : List String},
      linearizeAux g f c = .ok (c :: m) → x ∈ m →
      ∃ f2, f2 < f ∧ ∃ lx, linearizeAux g f2 x = .ok lx := by
  intro f
  induction f with
  | zero =>
    intro c x m h hx
    rw [linearizeAux_zero] at h
    simp at h
  | succ f ih =>
    intro c x m h hx
    cases hb : getBases g c with
    | error e => rw [linearizeAux_succ_err hb] at h; simp at h
    | ok bs =>
      cases bs with
      | nil =>
        rw [linearizeAux_succ_nil hb] at h
        injection h with h
        injection h with h1 h2
        rw [← h2] at hx
        simp at hx
      | cons b bs2 =>
        obtain ⟨ls, m2, hmap, hmer, heq⟩ := (linearizeAux_cons_ok hb).mp h
        obtain rfl : m = m2 := by
          injection heq with h1 h2
        obtain ⟨s, hs, hxs⟩ := (merge_mem hmer x).mp hx
        rcases List.mem_append.mp hs with hls | hsing
        · obtain ⟨b2, hb2, hok⟩ := mapExcept_elem hmap hls
          obtain ⟨mb, rfl⟩ := linearizeAux_ok_shape hok
          rcases List.mem_cons.mp hxs with rfl | hxmb
          · exact ⟨f, Nat.lt_succ_self f, _, hok⟩
          · obtain ⟨f2, hf2, lx, hok2⟩ := ih hok hxmb
            exact ⟨f2, by omega, lx, hok2⟩
        · have hxbs : x ∈ b :: bs2 := by
            rcases List.mem_singleton.mp hsing with rfl
            exact hxs
          obtain ⟨lx, _, hok⟩ := mapExcept_mem hmap hxbs
          exact ⟨f, Nat.lt_succ_self f, lx, hok⟩

theorem linearizeAux_not_mem_tail {g : Hierarchy} :
    ∀ {f : Nat} {c : String} {m : List String},
      linearizeAux g f c = .ok (c :: m) → c ∉ m := by
  intro f
  induction f using Nat.strong_induction_on with
  | _ f ih =>
    intro c m h hcm
    obtain ⟨f2, hf2, lc2, h2⟩ := linearizeAux_tail_succ h hcm
    have heq : lc2 = c :: m := linearizeAux_det h2 h
    subst heq
    exact ih f2 hf2 h2 hcm

theorem linearizeAux_nodup {g : Hierarchy} (hg : NodupBases g) :
    ∀ {f : Nat} {c : String} {l : List String},
      linearizeAux g f c = .ok l → l.Nodup := by
  intro f
  induction f with
  | zero =>
    intro c l h
    rw [linearizeAux_zero] at h
    simp at h
  | succ f ih =>
    intro c l h
    cases hb : getBases g c with
    | error e => rw [linearizeAux_succ_err hb] at h; simp at h
    | ok bs =>
      cases bs with
      | nil =>
        rw [linearizeAux_succ_nil hb] at h
        injection h with h
        subst h
        simp
      | cons b bs2 =>
        obtain ⟨ls, m, hmap, hmer, rfl⟩ := (linearizeAux_cons_ok hb).mp h
        have hndinp : ∀ s ∈ ls ++ [b :: bs2], s.Nodup := by
          intro s hs
          rcases List.mem_append.mp hs with hls | hsing
          · obtain ⟨b2, _, hok⟩ := mapExcept_elem hmap hls
            exact ih hok
          · rcases List.mem_singleton.mp hsing with rfl
            exact nodupBases_of hg hb
        exact List.nodup_cons.mpr
          ⟨linearizeAux_not_mem_tail h, merge_nodup hndinp hmer⟩

theorem linearizeAux_mem_of_ancestor {g : Hierarchy} {c x : String}
    (ha : Ancestor g c x) :
    ∀ {f : Nat} {l : List String}, linearizeAux g f c = .ok l → x ∈ l := by
  induction ha with
  | refl c =>
    intro f l h
    obtain ⟨m, rfl⟩ := linearizeAux_ok_shape h
    simp
  | step c b x bs hb hbm ha2 ih =>
    intro f l h
    cases f with
    | zero => rw [linearizeAux_zero] at h; simp at h
    | succ f =>
      cases bs with
      | nil => simp at hbm
      | cons b1 bs2 =>
        obtain ⟨ls, m, hmap, hmer, rfl⟩ := (linearizeAux_cons_ok hb).mp h
        obtain ⟨lb, hlb, hok⟩ := mapExcept_mem hmap hbm
        have hx : x ∈ m := (merge_mem hmer x).mpr
          ⟨lb, List.mem_append.mpr (Or.inl hlb), ih hok⟩
        simp [hx]

theorem linearizeAux_exists_baseless {g : Hierarchy} :
    ∀ {f : Nat} {c : String} {l : List String},
      linearizeAux g f c = .ok l →
      ∃ x, Ancestor g c x ∧ getBases g x = .ok [] := by
  intro f
  induction f with
  | zero =>
    intro c l h
    rw [linearizeAux_zero] at h
    simp at h
  | succ f ih =>
    intro c l h
    cases hb : getBases g c with
    | error e => rw [linearizeAux_succ_err hb] at h; simp at h
    | ok bs =>
      cases bs with
      | nil => exact ⟨c, Ancestor.refl c, hb⟩
      | cons b bs2 =>
        obtain ⟨ls, m, hmap, hmer, rfl⟩ := (linearizeAux_cons_ok hb).mp h
        obtain ⟨lb, _, hok⟩ := mapExcept_mem hmap (by simp : b ∈ b :: bs2)
        obtain ⟨x, hanc, hbl⟩ := ih hok
        exact ⟨x, Ancestor.step c b x (b :: bs2) hb (by simp) hanc, hbl⟩

theorem sublist_pair_asymm {a b : String} (hab : a ≠ b) :
    ∀ {l : List String}, l.Nodup → [a, b].Sublist l → [b, a].Sublist l →
      False := by
  intro l
  induction l with
  | nil => intro hnd h1 h2; simp at h1
  | cons z t ih =>
    intro hnd h1 h2
    have hz := List.nodup_cons.mp hnd
    cases h1 with
    | cons _ h1t =>
      cases h2 with
      | cons _ h2t => exact ih hz.2 h1t h2t
      | cons₂ _ h2t => exact hz.1 (h1t.subset (by simp))
    | cons₂ _ h1t =>
      cases h2 with
      | cons _ h2t => exact hz.1 (h2t.subset (by simp))
      | cons₂ _ h2t => exact hab rfl

theorem getLast?_concat_decomp {l : List String} {r : String}
    (h : l.getLast? = some r) : ∃ li, l = li ++ [r] := by
  rcases List.eq_nil_or_concat l with rfl | ⟨li, b, rfl⟩
  · simp at h
  · rw [List.concat_eq_append, List.getLast?_concat] at h
    injection h with h
    subst h
    exact ⟨li, List.concat_eq_append li b⟩

theorem pair_sublist_of_get {l : List String} :
    ∀ {i j : Nat} (hi : i < l.length) (hj : j < l.length), i < j →
      [l.get ⟨i, hi⟩, l.get ⟨j, hj⟩].Sublist l := by
  induction l with
  | nil => intro i j hi hj hij; simp at hi
  | cons z t ih =>
    intro i j hi hj hij
    cases i with
    | zero =>
      cases j with
      | zero => omega
      | succ j2 =>
        have hj2 : j2 < t.length := by simpa using hj
        show [z, t.get ⟨j2, hj2⟩].Sublist (z :: t)
        exact List.Sublist.cons₂ z (List.singleton_sublist.mpr (List.get_mem t j2 hj2))
    | succ i2 =>
      cases j with
      | zero => omega
      | succ j2 =>
        have hi2 : i2 < t.length := by simpa using hi
        have hj2 : j2 < t.length := by simpa using hj
        show [t.get ⟨i2, hi2⟩, t.get ⟨j2, hj2⟩].Sublist (z :: t)
        exact List.Sublist.cons z (ih hi2 hj2 (by omega))

theorem linearizeAux_getLast {g : Hierarchy} (hg : NodupBases g) (r : String) :
    ∀ {f : Nat} {c : String} {l : List String},
      (∀ x, Ancestor g c x → getBases g x = .ok [] → x = r) →
      linearizeAux g f c = .ok l → l.getLast? = some r := by
  intro f
  induction f with
  | zero =>
    intro c l hu h
    rw [linearizeAux_zero] at h
    simp at h
  | succ f ih =>
    intro c l hu h
    cases hb : getBases g c with
    | error e => rw [linearizeAux_succ_err hb] at h; simp at h
    | ok bs =>
      cases bs with
      | nil =>
        rw [linearizeAux_succ_nil hb] at h
        injection h with h
        subst h
        have hcr : c = r := hu c (Ancestor.refl c) hb
        simp [hcr]
      | cons b bs2 =>
        obtain ⟨ls, m, hmap, hmer, rfl⟩ := (linearizeAux_cons_ok hb).mp h
        have hbase : ∀ b2 ∈ b :: bs2, ∀ lb, linearizeAux g f b2 = .ok lb →
            lb.getLast? = some r := by
          intro b2 hb2 lb hok
          refine ih ?_ hok
          intro x hax hbl
          exact hu x (Ancestor.step c b2 x (b :: bs2) hb hb2 hax) hbl
        obtain ⟨lb0, hlb0, hok0⟩ := mapExcept_mem hmap (show b ∈ b :: bs2 by simp)
        obtain ⟨mb0, rfl⟩ := linearizeAux_ok_shape hok0
        have hbm : b ∈ m := (merge_mem hmer b).mpr
          ⟨b :: mb0, List.mem_append.mpr (Or.inl hlb0), by simp⟩
        rcases List.eq_nil_or_concat m with hmn | ⟨mi, z, hmz⟩
        · rw [hmn] at hbm; simp at hbm
        rw [List.concat_eq_append] at hmz
        have hndinp : ∀ s ∈ ls ++ [b :: bs2], s.Nodup := by
          intro s hs
          rcases List.mem_append.mp hs with hls | hsing
          · obtain ⟨b2, _, hok⟩ := mapExcept_elem hmap hls
            exact linearizeAux_nodup hg hok
          · rcases List.mem_singleton.mp hsing with rfl
            exact nodupBases_of hg hb
        have hmnd : m.Nodup := merge_nodup hndinp hmer
        have hzm : z ∈ m := by rw [hmz]; simp
        have hzin : ∃ lb, lb ∈ ls ∧ z ∈ lb ∧ lb.getLast? = some r := by
          obtain ⟨s, hs, hzs⟩ := (merge_mem hmer z).mp hzm
          rcases List.mem_append.mp hs with hls | hsing
          · obtain ⟨b2, hb2, hok⟩ := mapExcept_elem hmap hls
            exact ⟨s, hls, hzs, hbase b2 hb2 s hok⟩
          · rcases List.mem_singleton.mp hsing with rfl
            obtain ⟨lz, hlz, hokz⟩ := mapExcept_mem hmap hzs
            obtain ⟨mz, rfl⟩ := linearizeAux_ok_shape hokz
            exact ⟨z :: mz, hlz, by simp, hbase z hzs _ hokz⟩
        obtain ⟨lb, hlb, hzlb, hlast⟩ := hzin
        by_cases hzr : z = r
        · subst hzr
          rw [hmz]
          exact List.getLast?_concat (c :: mi)
        · exfalso
          obtain ⟨li, rfl⟩ := getLast?_concat_decomp hlast
          have hzli : z ∈ li := by
            rcases List.mem_append.mp hzlb with h1 | h2
            · exact h1
            · exact absurd (List.mem_singleton.mp h2) hzr
          have hsub1 : [z, r].Sublist (li ++ [r]) := by
            have h1 : [z].Sublist li := List.singleton_sublist.mpr hzli
            have h2 := List.Sublist.append h1 (List.Sublist.refl [r])
            simpa using h2
          have hsubm : [z, r].Sublist m :=
            merge_sublist hmer (List.mem_append.mpr (Or.inl hlb)) hsub1
          have hrm : r ∈ m := (merge_mem hmer r).mpr
            ⟨li ++ [r], List.mem_append.mpr (Or.inl hlb), by simp⟩
          have hrmi : r ∈ mi := by
            rw [hmz] at hrm
            rcases List.mem_append.mp hrm with h1 | h2
            · exact h1
            · exact absurd (List.mem_singleton.mp h2).symm hzr
          have hsub2 : [r, z].Sublist m := by
            rw [hmz]
            have h1 : [r].Sublist mi := List.singleton_sublist.mpr hrmi
            have h2 := List.Sublist.append h1 (List.Sublist.refl [z])
            simpa using h2
          exact sublist_pair_asymm hzr hmnd hsubm hsub2

theorem linearizeAux_rank_irrel {g : Hierarchy} {rank : String → Nat}
    (hr : IsRanked g rank) :
    ∀ (R : Nat) (c : String), rank c ≤ R →
      ∀ (f1 f2 : Nat), rank c < f1 → rank c < f2 →
        linearizeAux g f1 c = linearizeAux g f2 c := by
  intro R
  induction R using Nat.strong_induction_on with
  | _ R ih =>
    intro c hcR f1 f2 h1 h2
    obtain ⟨a, rfl⟩ : ∃ a, f1 = a + 1 := ⟨f1 - 1, by omega⟩
    obtain ⟨d, rfl⟩ : ∃ d, f2 = d + 1 := ⟨f2 - 1, by omega⟩
    cases hb : getBases g c with
    | error e => rw [linearizeAux_succ_err hb, linearizeAux_succ_err hb]
    | ok bs =>
      cases bs with
      | nil => rw [linearizeAux_succ_nil hb, linearizeAux_succ_nil hb]
      | cons b bs2 =>
        have hcongr : mapExcept (fun b2 => linearizeAux g a b2) (b :: bs2)
            = mapExcept (fun b2 => linearizeAux g d b2) (b :: bs2) := by
          apply mapExcept_congr
          intro b2 hb2
          have hlt : rank b2 < rank c := isRanked_lt hr hb hb2
          exact ih (rank b2) (by omega) b2 (Nat.le_refl _) a d (by omega) (by omega)
        simp only [linearizeAux, hb, hcongr]

theorem mapCorr (CG : Cache → Prop)
    {h1 : String → Except MroError (List String)}
    {h2 : String → Cache → Except MroError (List String × Cache)}
    {bs : List String}
    (hp : ∀ b ∈ bs, ∀ ch, CG ch →
      (∀ e, h1 b = .error e → h2 b ch = .error e) ∧
      (∀ v, h1 b = .ok v → ∃ ch2, h2 b ch = .ok (v, ch2) ∧ CG ch2)) :
    ∀ {cache : Cache}, CG cache →
      (∀ e, mapExcept h1 bs = .error e → mapMemo h2 bs cache = .error e) ∧
      (∀ vs, mapExcept h1 bs = .ok vs →
        ∃ cache2, mapMemo h2 bs cache = .ok (vs, cache2) ∧ CG cache2) := by
  induction bs with
  | nil =>
    intro cache hcg
    constructor
    · intro e herr; exact Except.noConfusion herr
    · intro vs hok
      injection hok with hok
      subst hok
      exact ⟨cache, rfl, hcg⟩
  | cons b bs2 ih =>
    intro cache hcg
    cases hb1 : h1 b with
    | error e0 =>
      have hex : mapExcept h1 (b :: bs2) = .error e0 := by
        simp only [mapExcept, hb1]
      have hh2 : h2 b cache = .error e0 := (hp b (by simp) cache hcg).1 e0 hb1
      have hmm : mapMemo h2 (b :: bs2) cache = .error e0 := by
        simp only [mapMemo, hh2]
      constructor
      · intro e herr
        rw [hex] at herr
        injection herr with herr
        subst herr
        exact hmm
      · intro vs hok; rw [hex] at hok; exact Except.noConfusion hok
    | ok l =>
      obtain ⟨cache2, hh2, hcg2⟩ := (hp b (by simp) cache hcg).2 l hb1
      have ihres := ih (fun b2 hb2 => hp b2 (by simp [hb2])) hcg2
      cases hrest : mapExcept h1 bs2 with
      | error e0 =>
        have hex : mapExcept h1 (b :: bs2) = .error e0 := by
          simp only [mapExcept, hb1, hrest]
        have hmm2 : mapMemo h2 bs2 cache2 = .error e0 := ihres.1 e0 hrest
        have hmm : mapMemo h2 (b :: bs2) cache = .error e0 := by
          simp only [mapMemo, hh2, hmm2]
        constructor
        · intro e herr
          rw [hex] at herr
          injection herr with herr
          subst herr
          exact hmm
        · intro vs hok; rw [hex] at hok; exact Except.noConfusion hok
      | ok ls2 =>
        obtain ⟨cache3, hmm2, hcg3⟩ := ihres.2 ls2 hrest
        have hex : mapExcept h1 (b :: bs2) = .ok (l :: ls2) := by
          simp only [mapExcept, hb1, hrest]
        have hmm : mapMemo h2 (b :: bs2) cache = .ok (l :: ls2, cache3) := by
          simp only [mapMemo, hh2, hmm2]
        constructor
        · intro e herr; rw [hex] at herr; exact Except.noConfusion herr
        · intro vs hok
          rw [hex] at hok
          injection hok with hok
          subst hok
          exact ⟨cache3, hmm, hcg3⟩

theorem memoAux_spec {g : Hierarchy} {rank : String → Nat} (hr : IsRanked g rank) :
    ∀ {f : Nat} {c : String} {cache : Cache}, rank c < f →
      CacheGood g rank cache →
      (∀ e, linearizeAux g f c = .error e → memoAux g f c cache = .error e) ∧
      (∀ v, linearizeAux g f c = .ok v →
        ∃ cache2, memoAux g f c cache = .ok (v, cache2) ∧
          CacheGood g rank cache2) := by
  intro f
  induction f with
  | zero => intro c cache h; exact absurd h (by omega)
  | succ f ih =>
    intro c cache hcf hcg
    cases hfind : cache.find? (fun p => p.1 == c) with
    | some p =>
      have hpv := List.find?_some hfind
      have hmem := List.mem_of_find?_eq_some hfind
      obtain ⟨p1, p2⟩ := p
      obtain rfl : c = p1 := (show p1 = c by simpa using hpv).symm
      have hval : linearizeAux g (f + 1) c = .ok p2 := hcg (c, p2) hmem (f + 1) hcf
      constructor
      · intro e herr; rw [hval] at herr; exact Except.noConfusion herr
      · intro v hok
        rw [hval] at hok
        injection hok with hok
        subst hok
        refine ⟨cache, ?_, hcg⟩
        simp only [memoAux, hfind]
    | none =>
      cases hb : getBases g c with
      | error e0 =>
        constructor
        · intro e herr
          rw [linearizeAux_succ_err hb] at herr
          injection herr with herr
          subst herr
          simp only [memoAux, hfind, hb]
        · intro v hok
          rw [linearizeAux_succ_err hb] at hok
          exact Except.noConfusion hok
      | ok bs =>
        cases bs with
        | nil =>
          constructor
          · intro e herr
            rw [linearizeAux_succ_nil hb] at herr
            exact Except.noConfusion herr
          · intro v hok
            rw [linearizeAux_succ_nil hb] at hok
            injection hok with hok
            subst hok
            refine ⟨(c, [c]) :: cache, ?_, ?_⟩
            · simp only [memoAux, hfind, hb]
            · intro p hp f2 hf2
              rcases List.mem_cons.mp hp with rfl | hp2
              · obtain ⟨k, rfl⟩ : ∃ k, f2 = k + 1 := ⟨f2 - 1, by omega⟩
                exact linearizeAux_succ_nil hb
              · exact hcg p hp2 f2 hf2
        | cons b bs2 =>
          have hbr : ∀ b2 ∈ b :: bs2, rank b2 < f := by
            intro b2 hb2
            have := isRanked_lt hr hb hb2
            omega
          have hpoint : ∀ b2 ∈ b :: bs2, ∀ ch, CacheGood g rank ch →
              (∀ e, linearizeAux g f b2 = .error e →
                memoAux g f b2 ch = .error e) ∧
              (∀ v, linearizeAux g f b2 = .ok v →
                ∃ ch2, memoAux g f b2 ch = .ok (v, ch2) ∧
                  CacheGood g rank ch2) := by
            intro b2 hb2 ch hch
            exact ih (hbr b2 hb2) hch
          have hcorr := mapCorr (CacheGood g rank) hpoint hcg
          cases hmap : mapExcept (fun b2 => linearizeAux g f b2) (b :: bs2) with
          | error e0 =>
            have hmm := hcorr.1 e0 hmap
            have haux : linearizeAux g (f + 1) c = .error e0 := by
              simp only [linearizeAux, hb, hmap]
            constructor
            · intro e herr
              rw [haux] at herr
              injection herr with herr
              subst herr
              simp only [memoAux, hfind, hb, hmm]
            · intro v hok
              rw [haux] at hok
              exact Except.noConfusion hok
          | ok ls =>
            obtain ⟨cache2, hmm, hcg2⟩ := hcorr.2 ls hmap
            cases hmer : merge (ls ++ [b :: bs2]) with
            | error e0 =>
              have haux : linearizeAux g (f + 1) c = .error e0 := by
                simp only [linearizeAux, hb, hmap, hmer]
              constructor
              · intro e herr
                rw [haux] at herr
                injection herr with herr
                subst herr
                simp only [memoAux, hfind, hb, hmm, hmer]
              · intro v hok
                rw [haux] at hok
                exact Except.noConfusion hok
            | ok m =>
              have haux : linearizeAux g (f + 1) c = .ok (c :: m) := by
                simp only [linearizeAux, hb, hmap, hmer]
              constructor
              · intro e herr
                rw [haux] at herr
                exact Except.noConfusion herr
              · intro v hok
                rw [haux] at hok
                injection hok with hok
                subst hok
                refine ⟨(c, c :: m) :: cache2, ?_, ?_⟩
                · simp only [memoAux, hfind, hb, hmm, hmer]
                · intro p hp f2 hf2
                  rcases List.mem_cons.mp hp with rfl | hp2
                  · show linearizeAux g f2 c = .ok (c :: m)
                    rw [linearizeAux_rank_irrel hr (rank c) c (Nat.le_refl _)
                      f2 (f + 1) hf2 hcf]
                    exact haux
                  · exact hcg2 p hp2 f2 hf2

theorem linearizeMemo_eq {g : Hierarchy} {rank : String → Nat}
    (hr : IsRanked g rank) {c : String} (hc : rank c ≤ g.length) :
    linearizeMemo g c = linearize g c := by
  have hcg0 : CacheGood g rank [] := by intro p hp; simp at hp
  have hspec := memoAux_spec hr (show rank c < g.length + 1 by omega) hcg0
  cases hlin : linearize g c with
  | error e =>
    have herr : linearizeAux g (g.length + 1) c = .error e := hlin
    have := hspec.1 e herr
    simp only [linearizeMemo, this]
  | ok v =>
    have hok : linearizeAux g (g.length + 1) c = .ok v := hlin
    obtain ⟨cache2, hmm, _⟩ := hspec.2 v hok
    simp only [linearizeMemo, hmm]

theorem linearize_mono_sublist {g : Hierarchy} {d c x y : String}
    (ha : Ancestor g d c) :
    ∀ {fd fc : Nat} {ld lc : List String},
      linearizeAux g fd d = .ok ld → linearizeAux g fc c = .ok lc →
      [x, y].Sublist lc → [x, y].Sublist ld := by
  induction ha with
  | refl d =>
    intro fd fc ld lc hld hlc hsub
    rw [linearizeAux_det hld hlc]
    exact hsub
  | step d b c2 bs hgb hbm ha2 ih =>
    intro fd fc ld lc hld hlc hsub
    cases fd with
    | zero => rw [linearizeAux_zero] at hld; simp at hld
    | succ f =>
      cases bs with
      | nil => simp at hbm
      | cons b1 bs3 =>
        obtain ⟨ls, m, hmap, hmer, rfl⟩ := (linearizeAux_cons_ok hgb).mp hld
        obtain ⟨lb, hlb, hok⟩ := mapExcept_mem hmap hbm
        have hsubb : [x, y].Sublist lb := ih hok hlc hsub
        have hsubm : [x, y].Sublist m :=
          merge_sublist hmer (List.mem_append.mpr (Or.inl hlb)) hsubb
        exact List.Sublist.cons d hsubm

/-- C1: for a type present in the hierarchy with a non-empty list of declared
bases, a successful linearization equals the type followed by the merge of
the linearizations of the bases, in declaration order, plus the base list
itself; a type with no declared bases linearizes to the singleton sequence
of itself. -/
theorem mro_c1 (g : Hierarchy) (c : String) :
    (getBases g c = .ok [] → linearize g c = .ok [c]) ∧
    (∀ l bs, linearize g c = .ok l → getBases g c = .ok bs → bs ≠ [] →
      ∃ ls m, List.Forall₂ (fun b lb => linearize g b = .ok lb) bs ls ∧
        merge (ls ++ [bs]) = .ok m ∧ l = c :: m) := by
  constructor
  · intro hb
    show linearizeAux g (g.length + 1) c = .ok [c]
    exact linearizeAux_succ_nil hb
  · intro l bs hlin hb hne
    cases bs with
    | nil => exact absurd rfl hne
    | cons b bs2 =>
      have hlin2 : linearizeAux g (g.length + 1) c = .ok l := hlin
      obtain ⟨ls, m, hmap, hmer, rfl⟩ := (linearizeAux_cons_ok hb).mp hlin2
      refine ⟨ls, m, ?_, hmer, rfl⟩
      exact List.Forall₂.imp
        (fun b2 lb hok => linearizeAux_mono (Nat.le_succ _) hok)
        (mapExcept_forall2 hmap)

/-- Witness for C1 at the diamond hierarchy and query `A`. -/
theorem mro_c1_witness :
    ∃ ls m, List.Forall₂ (fun b lb => linearize diamondG b = .ok lb)
        ["B", "C"] ls ∧
      merge (ls ++ [["B", "C"]]) = .ok m ∧
      (["A", "B", "C", "D", "E", "F", "O"] : List String) = "A" :: m :=
  (mro_c1 diamondG "A").2 ["A", "B", "C", "D", "E", "F", "O"] ["B", "C"]
    rfl rfl (by simp)

/-- C2: the diamond hierarchy O; D(O), E(O), F(O); B(D,E), C(D,F); A(B,C)
linearizes A to exactly [A, B, C, D, E, F, O], as in the notebook. -/
theorem mro_c2 :
    linearize diamondG "A" = .ok ["A", "B", "C", "D", "E", "F", "O"] := by rfl

/-- C3: on duplicate-free inputs a successful merge returns the union of
the input elements each exactly once, and consequently every ancestor of a
query type appears exactly once in its linearization. -/
theorem mro_c3 :
    (∀ seqs out, (∀ s ∈ seqs, s.Nodup) → merge seqs = .ok out →
      out.Nodup ∧ ∀ x, x ∈ out ↔ ∃ s ∈ seqs, x ∈ s) ∧
    (∀ (g : Hierarchy) (c : String) (l : List String) (x : String),
      NodupBases g → linearize g c = .ok l → Ancestor g c x →
      l.count x = 1) := by
  constructor
  · intro seqs out hnd hm
    exact ⟨merge_nodup hnd hm, merge_mem hm⟩
  · intro g c l x hg hlin hanc
    exact List.count_eq_one_of_mem (linearizeAux_nodup hg hlin)
      (linearizeAux_mem_of_ancestor hanc hlin)

/-- Witness for C3: a concrete merge and the ancestor O of D in the
diamond hierarchy. -/
theorem mro_c3_witness :
    ((["A", "O"] : List String).Nodup ∧
      ∀ x, x ∈ (["A", "O"] : List String) ↔
        ∃ s ∈ [["A", "O"]], x ∈ s) ∧
    (["D", "O"] : List String).count "O" = 1 := by
  refine ⟨mro_c3.1 [["A", "O"]] ["A", "O"] (by decide) rfl,
    mro_c3.2 diamondG "D" ["D", "O"] "O" (by decide) rfl ?_⟩
  exact Ancestor.step "D" "O" "O" ["O"] rfl (by simp) (Ancestor.refl "O")

/-- C4: a successful merge preserves every pairwise order present within
any single input sequence. -/
theorem mro_c4 (seqs : List (List String)) (out s : List String)
    (x y : String) (hm : merge seqs = .ok out) (hs : s ∈ seqs)
    (hsub : [x, y].Sublist s) : [x, y].Sublist out :=
  merge_sublist hm hs hsub

/-- Witness for C4 at the notebook example merge(DO, EO, DE) = DEO. -/
theorem mro_c4_witness :
    [("D" : String), "O"].Sublist ["D", "E", "O"] :=
  mro_c4 [["D", "O"], ["E", "O"], ["D", "E"]] ["D", "E", "O"] ["D", "O"]
    "D" "O" rfl (by simp) (List.Sublist.refl _)

/-- C5: merge fails exactly when the deterministic loop reaches a state in
which sequences remain non-empty but no good head exists, that is, every
remaining non-empty sequence has its head in the tail of some other
sequence; the failure is always InconsistentHierarchy, and a successful
merge is exactly one whose loop empties all sequences (by the Except result
type, no partial output accompanies a failure). -/
theorem mro_c5 (seqs : List (List String)) :
    (∀ e, merge seqs = .error e →
      ∃ hs, e = MroError.inconsistentHierarchy hs) ∧
    ((∃ e, merge seqs = .error e) ↔
      ∃ s2, MergeReaches seqs s2 ∧ s2.all List.isEmpty = false ∧
        findGoodHead [] s2 = none) ∧
    (∀ s2 : List (List String), findGoodHead [] s2 = none ↔
      ∀ s1 x t s3, s2 = s1 ++ (x :: t) :: s3 →
        ∃ s ∈ s1 ++ s3, inTail x s = true) ∧
    (∀ out, merge seqs = .ok out →
      ∃ s2, MergeReaches seqs s2 ∧ s2.all List.isEmpty = true) := by
  refine ⟨fun e he => (merge_error_char he).1, ⟨?_, ?_⟩,
    fun s2 => findGoodHead_none_iff, fun out ho => merge_ok_reach_empty ho⟩
  · rintro ⟨e, he⟩
    exact (merge_error_char he).2
  · rintro ⟨s2, hre, hne, hnone⟩
    exact merge_error_of_reach_none hre hne hnone

/-- Witness for C5 at the conflicting merge of AB with BA. -/
theorem mro_c5_witness :
    ∃ s2, MergeReaches [["A", "B"], ["B", "A"]] s2 ∧
      s2.all List.isEmpty = false ∧ findGoodHead [] s2 = none :=
  (mro_c5 [["A", "B"], ["B", "A"]]).2.1.mp
    ⟨MroError.inconsistentHierarchy ["A", "B"], rfl⟩

/-- C6: local precedence. The declared bases of a type appear in the
successful linearization of that type in declaration order. -/
theorem mro_c6 (g : Hierarchy) (c : String) (bs l : List String)
    (i j : Nat) (hb : getBases g c = .ok bs) (hlin : linearize g c = .ok l)
    (hij : i < j) (hi : i < bs.length) (hj : j < bs.length) :
    [bs.get ⟨i, hi⟩, bs.get ⟨j, hj⟩].Sublist l := by
  cases bs with
  | nil => simp at hj
  | cons b bs2 =>
    have hlin2 : linearizeAux g (g.length + 1) c = .ok l := hlin
    obtain ⟨ls, m, hmap, hmer, rfl⟩ := (linearizeAux_cons_ok hb).mp hlin2
    have hpair := pair_sublist_of_get hi hj hij
    have hsubm := merge_sublist hmer
      (List.mem_append.mpr (Or.inr (by simp))) hpair
    exact List.Sublist.cons c hsubm

/-- Witness for C6 at the diamond hierarchy: B precedes C in the
linearization of A(B, C). -/
theorem mro_c6_witness :
    [(["B", "C"] : List String).get ⟨0, by decide⟩,
      (["B", "C"] : List String).get ⟨1, by decide⟩].Sublist
      ["A", "B", "C", "D", "E", "F", "O"] :=
  mro_c6 diamondG "A" ["B", "C"] ["A", "B", "C", "D", "E", "F", "O"]
    0 1 rfl rfl (by decide) (by decide) (by decide)

/-- C7: monotonicity. If C is an ancestor of D, any pairwise order in the
successful linearization of C is preserved in the successful linearization
of D. The hypothesis is the plain ancestor relation, which is implied by
the claim condition that C lies on every path of the construction of D. -/
theorem mro_c7 (g : Hierarchy) (c d x y : String) (lc ld : List String)
    (ha : Ancestor g d c) (hlc : linearize g c = .ok lc)
    (hld : linearize g d = .ok ld) (hsub : [x, y].Sublist lc) :
    [x, y].Sublist ld :=
  linearize_mono_sublist ha hld hlc hsub

/-- Witness for C7: D precedes E in the linearization of B and hence in
the linearization of A in the diamond hierarchy. -/
theorem mro_c7_witness :
    [("D" : String), "E"].Sublist ["A", "B", "C", "D", "E", "F", "O"] :=
  mro_c7 diamondG "B" "A" "D" "E" ["B", "D", "E", "O"]
    ["A", "B", "C", "D", "E", "F", "O"]
    (Ancestor.step "A" "B" "B" ["B", "C"] rfl (by simp) (Ancestor.refl "B"))
    rfl rfl
    (List.Sublist.cons "B" (List.Sublist.cons₂ "D"
      (List.Sublist.cons₂ "E" (List.nil_sublist ["O"]))))

/-- C8: both conflicting sibling hierarchies fail with
InconsistentHierarchy and return no ordering: scenario C of the spec and
the notebook example E(C, D). -/
theorem mro_c8 :
    linearize scenarioCG "Cq" =
      .error (.inconsistentHierarchy ["Y", "X"]) ∧
    linearize conflictG "E" =
      .error (.inconsistentHierarchy ["A", "B"]) := by
  constructor <;> rfl

/-- C9: linearize is deterministic, and on a hierarchy admitting a rank
function, acyclic as section 3 requires, the memoized computation returns
exactly the result of the unmemoized one, failures included. -/
theorem mro_c9 (g : Hierarchy) (rank : String → Nat) (c : String)
    (hr : IsRanked g rank) (hc : rank c ≤ g.length) :
    linearize g c = linearize g c ∧ linearizeMemo g c = linearize g c :=
  ⟨rfl, linearizeMemo_eq hr hc⟩

/-- Witness for C9 at the diamond hierarchy with an explicit rank. -/
theorem mro_c9_witness :
    linearize diamondG "A" = linearize diamondG "A" ∧
      linearizeMemo diamondG "A" = linearize diamondG "A" :=
  mro_c9 diamondG
    (fun s => if s = "A" then 3 else if s = "B" then 2 else
      if s = "C" then 2 else if s = "O" then 0 else 1)
    "A" (by decide) (by decide)

/-- C10: if every base-less ancestor of the query type is the single root
r, a successful linearization ends with r. -/
theorem mro_c10 (g : Hierarchy) (c r : String) (l : List String)
    (hg : NodupBases g) (hlin : linearize g c = .ok l)
    (hu : ∀ x, Ancestor g c x → getBases g x = .ok [] → x = r) :
    l.getLast? = some r :=
  linearizeAux_getLast hg r hu hlin

/-- Witness for C10 at the diamond hierarchy, whose unique root is O. -/
theorem mro_c10_witness :
    (["A", "B", "C", "D", "E", "F", "O"] : List String).getLast? =
      some "O" := by
  refine mro_c10 diamondG "A" "O" ["A", "B", "C", "D", "E", "F", "O"]
    (by decide) rfl ?_
  intro x hanc hbase
  have hx : x ∈ (["A", "B", "C", "D", "E", "F", "O"] : List String) :=
    linearizeAux_mem_of_ancestor hanc
      (show linearizeAux diamondG 8 "A" =
        .ok ["A", "B", "C", "D", "E", "F", "O"] from rfl)
  fin_cases hx <;> first
    | rfl
    | (injection hbase with h2; exact List.noConfusion h2)
